import Mathlib

/-!
Verification of the progress-synchronization and health-reporting subsystem
of the autonomous-coding-agent repository, against its natural-language
specification.  The Python sources embedded here are
`src/local_metrics.py` (the Status Store / Health Publisher,
class `LocalMetricsPublisher`) and `vps_entrypoint.py` (the Feature-Issue
Registry, Progress Reconciler and Artifact Deduplicator).

Python dictionaries are modelled as association lists in insertion order
(`alGet` is `d.get(k)`, `alSet` is `d[k] = v`: replace in place if the key
exists, append at the end otherwise, exactly as an insertion-ordered Python
dict behaves).  Timestamps produced by `datetime.now` are passed in as
explicit string arguments; no verified property depends on their value.
-/

namespace Spec2Proof

section AssocList

variable {α β : Type} [DecidableEq α]

/-- `d.get(k)` on a Python dict: the value at the first occurrence of `k`. -/
def alGet (k : α) : List (α × β) → Option β
  | [] => none
  | (k', v) :: t => if k' = k then some v else alGet k t

/-- `d[k] = v` on an insertion-ordered Python dict: replace the value at the
first occurrence of `k` in place, or append `(k, v)` at the end. -/
def alSet (k : α) (v : β) : List (α × β) → List (α × β)
  | [] => [(k, v)]
  | (k', v') :: t => if k' = k then (k, v) :: t else (k', v') :: alSet k v t

/-- `d.update(kvs)` on a Python dict: set each key of `kvs` in order. -/
def pyUpdate (d kvs : List (α × β)) : List (α × β) :=
  kvs.foldl (fun acc kv => alSet kv.1 kv.2 acc) d

theorem alGet_alSet_self (k : α) (v : β) (l : List (α × β)) :
    alGet k (alSet k v l) = some v := by
  induction l with
  | nil => simp [alGet, alSet]
  | cons hd t ih =>
    obtain ⟨k', v'⟩ := hd
    by_cases h : k' = k
    · subst h; simp [alGet, alSet]
    · simp [alGet, alSet, h, ih]

theorem alGet_alSet_ne (k k' : α) (v : β) (l : List (α × β)) (h : k' ≠ k) :
    alGet k (alSet k' v l) = alGet k l := by
  induction l with
  | nil => simp [alGet, alSet, h]
  | cons hd t ih =>
    obtain ⟨k₀, v₀⟩ := hd
    by_cases h₀ : k₀ = k'
    · subst h₀; simp [alGet, alSet, h]
    · simp only [alSet, if_neg h₀]
      by_cases h₁ : k₀ = k
      · simp [alGet, h₁]
      · simp [alGet, h₁, ih]

theorem alSet_alSet_self (k : α) (v : β) (l : List (α × β)) :
    alSet k v (alSet k v l) = alSet k v l := by
  induction l with
  | nil => simp [alSet]
  | cons hd t ih =>
    obtain ⟨k', v'⟩ := hd
    by_cases h : k' = k
    · subst h; simp [alSet]
    · simp [alSet, h, ih]

theorem alGet_eq_none_of_not_mem (k : α) (l : List (α × β))
    (h : k ∉ l.map Prod.fst) : alGet k l = (none : Option β) := by
  induction l with
  | nil => rfl
  | cons hd t ih =>
    obtain ⟨k₀, v₀⟩ := hd
    simp only [List.map_cons, List.mem_cons, not_or] at h
    simp only [alGet]
    rw [if_neg (fun he => h.1 he.symm)]
    exact ih h.2

theorem alGet_pyUpdate_of_none (kvs : List (α × β)) :
    ∀ (d : List (α × β)) (k : α), alGet k kvs = none →
      alGet k (pyUpdate d kvs) = alGet k d := by
  induction kvs with
  | nil => intro d k _; rfl
  | cons hd t ih =>
    intro d k hk
    obtain ⟨k₀, v₀⟩ := hd
    simp only [alGet] at hk
    by_cases h : k₀ = k
    · simp [h] at hk
    · simp only [if_neg h] at hk
      simp only [pyUpdate, List.foldl_cons]
      have := ih (alSet k₀ v₀ d) k hk
      simp only [pyUpdate] at this
      rw [this, alGet_alSet_ne _ _ _ _ h]

theorem alGet_pyUpdate_of_some (kvs : List (α × β)) :
    ∀ (d : List (α × β)) (k : α) (v : β), (kvs.map Prod.fst).Nodup →
      alGet k kvs = some v → alGet k (pyUpdate d kvs) = some v := by
  induction kvs with
  | nil => intro d k v _ hk; simp [alGet] at hk
  | cons hd t ih =>
    intro d k v hnd hk
    obtain ⟨k₀, v₀⟩ := hd
    simp only [List.map_cons, List.nodup_cons] at hnd
    simp only [alGet] at hk
    by_cases h : k₀ = k
    · subst h
      simp only [if_true, eq_self_iff_true, if_pos, Option.some.injEq] at hk
      subst hk
      have hnone : alGet k₀ t = (none : Option β) :=
        alGet_eq_none_of_not_mem k₀ t hnd.1
      simp only [pyUpdate, List.foldl_cons]
      have := alGet_pyUpdate_of_none t (alSet k₀ v₀ d) k₀ hnone
      simp only [pyUpdate] at this
      rw [this, alGet_alSet_self]
    · simp only [if_neg h] at hk
      simp only [pyUpdate, List.foldl_cons]
      have := ih (alSet k₀ v₀ d) k v hnd.2 hk
      simp only [pyUpdate] at this
      exact this

end AssocList

/-! ## Status Store / Health Publisher (`src/local_metrics.py`)

Values stored in the metrics JSON file.  The fields the verified claims
touch are strings, integers, null (Python `None`) and the bounded list of
error records `{type, timestamp}`; an error record is modelled as a pair
(type, timestamp).  Floating-point counters (e.g. `elapsed_hours`) are
passed through opaquely as `Val` arguments, since no claim depends on
their numeric value. -/

inductive Val : Type
  | vNull : Val
  | vInt : Int → Val
  | vStr : String → Val
  | vErrs : List (String × String) → Val
  deriving DecidableEq, Repr

/-- The metrics snapshot: a Python dict from field name to value. -/
abbrev Dict := List (String × Val)

/-- The in-memory state of `LocalMetricsPublisher`: the `enabled` flag and
the running commit total `self._total_commits`, plus the constructor
arguments used by `publish_session_started`. -/
structure Pub : Type where
  enabled : Bool
  totalCommits : Int
  issueNumber : Option Int
  sessionId : Option String
  deriving DecidableEq, Repr

/-- `_write_metrics(metrics)`: when disabled return `False` and leave the
file untouched; when enabled replace the file content with `metrics` and
return `True` (the claims under verification assume the write itself
succeeds, so the I/O-exception branch is not modelled). -/
def writeMetrics (p : Pub) (file metrics : Dict) : Bool × Dict :=
  if p.enabled then (true, metrics) else (false, file)

/-- `_update_metrics(**kwargs)`: read the file, `metrics.update(kwargs)`,
stamp `last_updated` with the current time `ts`, then `_write_metrics`. -/
def updateMetrics (p : Pub) (file : Dict) (kwargs : Dict) (ts : String) :
    Bool × Dict :=
  writeMetrics p file (alSet "last_updated" (Val.vStr ts) (pyUpdate file kwargs))

/-- `publish_session_started(mode)`: build the initial snapshot, reset
`self._total_commits` to 0, and `_write_metrics` it (no `last_updated`
stamp on this path).  Returns (result, new publisher state, new file). -/
def publishSessionStarted (p : Pub) (file : Dict) (mode ts : String) :
    Bool × Pub × Dict :=
  let metrics : Dict :=
    [("current_issue", (p.issueNumber.map Val.vInt).getD Val.vNull),
     ("session_id", (p.sessionId.map Val.vStr).getD Val.vNull),
     ("status", Val.vStr "running"),
     ("mode", Val.vStr mode),
     ("session_started", Val.vStr ts),
     ("last_heartbeat", Val.vStr ts),
     ("total_commits", Val.vInt 0),
     ("elapsed_hours", Val.vInt 0),
     ("cost_usd", Val.vInt 0),
     ("api_calls", Val.vInt 0),
     ("input_tokens", Val.vInt 0),
     ("output_tokens", Val.vInt 0)]
  let p' := { p with totalCommits := 0 }
  let (r, file') := writeMetrics p file metrics
  (r, p', file')

/-- `publish_progress(...)`: `_update_metrics` with the six counters, the
running commit total and a fresh `last_heartbeat`.  The numeric arguments
are opaque `Val`s. -/
def publishProgress (p : Pub) (file : Dict)
    (elapsedHours remainingHours costUsd apiCalls inputTokens outputTokens : Val)
    (ts : String) : Bool × Dict :=
  updateMetrics p file
    [("elapsed_hours", elapsedHours),
     ("remaining_hours", remainingHours),
     ("cost_usd", costUsd),
     ("api_calls", apiCalls),
     ("input_tokens", inputTokens),
     ("output_tokens", outputTokens),
     ("total_commits", Val.vInt p.totalCommits),
     ("last_heartbeat", Val.vStr ts)] ts

/-- `publish_commits_pushed(count)`: `self._total_commits += count` happens
unconditionally, before `_update_metrics` consults the enabled flag. -/
def publishCommitsPushed (p : Pub) (file : Dict) (count : Int) (ts : String) :
    Bool × Pub × Dict :=
  let p' := { p with totalCommits := p.totalCommits + count }
  let (r, file') := updateMetrics p' file
    [("total_commits", Val.vInt p'.totalCommits),
     ("last_push", Val.vStr ts),
     ("last_push_count", Val.vInt count)] ts
  (r, p', file')

/-- Python `l[-50:]`: the at most 50 most recent elements. -/
def pyLast50 {α : Type} (l : List α) : List α := l.drop (l.length - 50)

/-- `metrics.get("errors", [])` as the code uses it: `some []` when the key
is absent, the stored list when it holds an error list, and `none` when the
stored value has a type on which Python `.append` would raise. -/
def getErrList (file : Dict) : Option (List (String × String)) :=
  match alGet "errors" file with
  | none => some []
  | some (Val.vErrs es) => some es
  | some _ => none

/-- `publish_error(error_type)`: read the error history, append the new
record, keep only the last 50, and `_update_metrics` with the capped list,
`last_error`, `last_error_time` and `status = "error"`.  `none` models the
uncaught exception raised when the stored `errors` value is not a list. -/
def publishError (p : Pub) (file : Dict) (etype ts : String) :
    Option (Bool × Dict) :=
  (getErrList file).map fun es =>
    let errors := pyLast50 (es ++ [(etype, ts)])
    updateMetrics p file
      [("errors", Val.vErrs errors),
       ("last_error", Val.vStr etype),
       ("last_error_time", Val.vStr ts),
       ("status", Val.vStr "error")] ts

/-- A sequence of `publish_error` calls on the same store, threading the
file through; an out-of-model type error stops the sequence. -/
def publishErrorSeq (p : Pub) : Dict → List (String × String) → Dict
  | file, [] => file
  | file, (e, ts) :: rest =>
    match publishError p file e ts with
    | some (_, file') => publishErrorSeq p file' rest
    | none => file

/-! ## Progress Reconciler (`vps_entrypoint.py`, `post_feature_progress`)

A test record, restricted to the two fields the reconciler reads:
`test.get('issueNumber')` (absent modelled as `none`) and the truthiness of
`test.get('passes')`. -/

structure TestRec : Type where
  issueNumber : Option Int
  passes : Bool
  deriving DecidableEq, Repr

/-- Append a record to the group of its issue inside an insertion-ordered
`defaultdict(list)`. -/
def addToGroup (n : Int) (t : TestRec) :
    List (Int × List TestRec) → List (Int × List TestRec)
  | [] => [(n, [t])]
  | (m, ts) :: rest =>
    if m = n then (m, ts ++ [t]) :: rest else (m, ts) :: addToGroup n t rest

/-- One iteration of the grouping loop: append the test to its issue's
group when `test.get('issueNumber')` is truthy (present and nonzero). -/
def grpStep (gs : List (Int × List TestRec)) (t : TestRec) :
    List (Int × List TestRec) :=
  match t.issueNumber with
  | some n => if n ≠ 0 then addToGroup n t gs else gs
  | none => gs

/-- The grouping loop: `by_issue[issue_num].append(test)` for every test
whose `issueNumber` is truthy. -/
def byIssue (tests : List TestRec) : List (Int × List TestRec) :=
  tests.foldl grpStep []

/-- A remote action issued against the issue tracker during one pass. -/
inductive RAction : Type
  | completionComment : Int → RAction
  | closeIssue : Int → RAction
  | setLabels : Int → List String → RAction
  | progressComment : Int → Nat → Nat → RAction
  deriving DecidableEq, Repr

/-- The label rewrite on completion: drop `agent-building`, then append
`agent-complete` if it is not already present. -/
def completionLabels (current : List String) : List String :=
  let newLabels := current.filter (fun l => l ≠ "agent-building")
  if "agent-complete" ∈ newLabels then newLabels else newLabels ++ ["agent-complete"]

/-- `pct = (passed / total * 100) if total > 0 else 0`: the guarded
percentage computed for the progress comment. -/
def progressPct (passed total : Nat) : ℚ :=
  if total > 0 then (passed : ℚ) / (total : ℚ) * 100 else 0

/-- The remote calls made for one issue once its counters differ from the
last-seen value, given the issue's current labels: either the completion
sequence (comment, close, relabel) or a single progress comment. -/
def issueActions (labels : List String) (n : Int) (passed total : Nat) :
    List RAction :=
  if passed = total ∧ total > 0 then
    [RAction.completionComment n, RAction.closeIssue n,
     RAction.setLabels n (completionLabels labels)]
  else
    [RAction.progressComment n passed total]

/-- `passed = sum(1 for t in feature_tests if t.get('passes'))`. -/
def passedCount (ts : List TestRec) : Nat :=
  (ts.filter (fun t => t.passes)).length

/-- The per-issue loop of `post_feature_progress`.  The oracle models the
remote issue tracker: `oracle n = some labels` means every remote call for
issue `n` succeeds and the issue currently carries `labels`; `oracle n =
none` means the first remote call for issue `n` raises, so the exception
propagates to the function-level `except`, which returns the
already-mutated `last_progress` dict with no further issue processed.
Faithful to the source, `last_progress[issue_num] = passed` executes
before any remote call for that issue. -/
def processIssues (oracle : Int → Option (List String)) :
    List (Int × List TestRec) → List (Int × Nat) → List RAction →
    List (Int × Nat) × List RAction
  | [], lp, acts => (lp, acts)
  | (n, ts) :: rest, lp, acts =>
    if alGet n lp = some (passedCount ts) then
      processIssues oracle rest lp acts
    else
      match oracle n with
      | none => (alSet n (passedCount ts) lp, acts)
      | some labels =>
        processIssues oracle rest (alSet n (passedCount ts) lp)
          (acts ++ issueActions labels n (passedCount ts) ts.length)

/-- `post_feature_progress(tests, ..., last_progress)`: group the tests by
issue and run the per-issue loop; returns the updated last-seen map and
the remote actions emitted during the pass. -/
def postFeatureProgress (oracle : Int → Option (List String))
    (tests : List TestRec) (lp : List (Int × Nat)) :
    List (Int × Nat) × List RAction :=
  processIssues oracle (byIssue tests) lp []

/-! ## Artifact Deduplicator (`vps_entrypoint.py`, `post_screenshots_to_issue`)

A scan result is the list of `(filename, content_hash)` pairs produced by
globbing the screenshots directory and hashing each file. -/

/-- The filter loop: keep the screenshots whose hash is not yet in
`uploaded_hashes`. -/
def newShots (scan : List (String × String)) (uploaded : Finset String) :
    List (String × String) :=
  scan.filter (fun ph => ph.2 ∉ uploaded)

/-- `post_screenshots_to_issue`: if nothing is new, return the seen set
unchanged and make no remote call; otherwise add to the set the hashes of
only the first 5 new screenshots (the ones named in the comment body) and
post one comment.  Returns the new set and whether a comment was posted. -/
def postScreenshots (scan : List (String × String)) (uploaded : Finset String) :
    Finset String × Bool :=
  if newShots scan uploaded = [] then (uploaded, false)
  else (((newShots scan uploaded).take 5).foldl
          (fun acc ph => insert ph.2 acc) uploaded, true)

/-! ## Concurrent Status Store updates (`local_metrics.py`, claim C4)

Each `_update_metrics` call is two atomic events on the shared metrics
file: the unlocked `_read_metrics` (the `flock` in `_write_metrics` is
taken only around `json.dump`, so nothing serializes a reader against a
concurrent writer) and the locked write of the locally merged dict.  A
schedule is any interleaving of the two events of updater 1 (fields `k1`,
timestamp `t1`) and the two events of updater 2 (fields `k2`, `t2`). -/

structure CState : Type where
  file : Dict
  buf1 : Option Dict
  buf2 : Option Dict
  deriving DecidableEq, Repr

inductive CEv : Type
  | read1 | read2 | write1 | write2
  deriving DecidableEq, Repr

/-- One atomic event: a read copies the file into the updater's local
variable; a write stores the merged-and-stamped local dict back. -/
def cstep (k1 k2 : Dict) (t1 t2 : String) (s : CState) : CEv → CState
  | CEv.read1 => { s with buf1 := some s.file }
  | CEv.read2 => { s with buf2 := some s.file }
  | CEv.write1 =>
    { s with file := alSet "last_updated" (Val.vStr t1) (pyUpdate (s.buf1.getD []) k1) }
  | CEv.write2 =>
    { s with file := alSet "last_updated" (Val.vStr t2) (pyUpdate (s.buf2.getD []) k2) }

/-- Run a schedule of events over the shared store. -/
def crun (k1 k2 : Dict) (t1 t2 : String) (evs : List CEv) (s : CState) : CState :=
  evs.foldl (cstep k1 k2 t1 t2) s

/-! ## Feature-Issue Registry (`vps_entrypoint.py`, `assign_issue_numbers_to_tests`)

The ledger file is JSON; `json.loads` / `json.dumps` round-trip a parsed
tree deterministically (insertion-ordered dicts), so the file content is
modelled as the parsed tree together with a deterministic serializer:
byte-for-byte identity of the written file is serializer equality. -/

inductive Json : Type
  | null : Json
  | bool : Bool → Json
  | int : Int → Json
  | str : String → Json
  | arr : List Json → Json
  | obj : List (String × Json) → Json

mutual

/-- Deterministic serialization of a parsed tree, standing in for
`json.dumps(tests, indent=2)`: the exact whitespace and escaping rules are
immaterial, only that equal trees serialize to equal bytes. -/
def serJson : Json → String
  | Json.null => "null"
  | Json.bool b => if b then "true" else "false"
  | Json.int n => toString n
  | Json.str s => "\"" ++ s ++ "\""
  | Json.arr xs => "[" ++ serItems xs ++ "]"
  | Json.obj kvs => "\x7b" ++ serFields kvs ++ "\x7d"

def serItems : List Json → String
  | [] => ""
  | [x] => serJson x
  | x :: y :: xs => serJson x ++ ", " ++ serItems (y :: xs)

def serFields : List (String × Json) → String
  | [] => ""
  | [kv] => "\"" ++ kv.1 ++ "\": " ++ serJson kv.2
  | kv :: kv' :: xs => "\"" ++ kv.1 ++ "\": " ++ serJson kv.2 ++ ", " ++ serFields (kv' :: xs)

end

/-- The body of the per-record stamping step on an object's fields:
`feature = test.get('feature')`; when `feature` is truthy and a key of the
map (only a nonempty string can be both truthy and equal to one of the
map's string keys), set `test['issueNumber']`. -/
def stampObj (m : List (String × Int)) (kvs : List (String × Json)) :
    List (String × Json) :=
  match alGet "feature" kvs with
  | some (Json.str s) =>
    if s ≠ "" then
      match alGet s m with
      | some v => alSet "issueNumber" (Json.int v) kvs
      | none => kvs
    else kvs
  | _ => kvs

/-- The per-record stamping step; a record that is not a JSON object makes
`test.get` raise, modelled as `none`. -/
def stampTest (m : List (String × Int)) : Json → Option Json
  | Json.obj kvs => some (Json.obj (stampObj m kvs))
  | _ => none

/-- Stamp every record of the ledger array; an exception at any record
aborts the whole call before anything is written. -/
def stampList (m : List (String × Int)) : List Json → Option (List Json)
  | [] => some []
  | t :: ts =>
    match stampTest m t, stampList m ts with
    | some t', some ts' => some (t' :: ts')
    | _, _ => none

/-- `assign_issue_numbers_to_tests` on the parsed file content: a ledger
that is not an array (or has a non-object record) raises inside the `try`,
is caught, and leaves the file unwritten. -/
def stampFile (m : List (String × Int)) : Json → Option Json
  | Json.arr ts => (stampList m ts).map Json.arr
  | _ => none

/-- The file content after one `assign_issue_numbers_to_tests` call:
the stamped tree when the call succeeds, the previous content otherwise. -/
def fileAfterStamp (m : List (String × Int)) (c : Json) : Json :=
  (stampFile m c).getD c

/-! ## Claim theorems -/

/-- C1.  The claim says the last-seen counter is updated only after the
comment is emitted, and is left unchanged when the remote call fails so
that the next pass re-attempts.  The code updates `last_progress` before
any remote call: on the ledger `[(issueNumber 1, passes)]` with an empty
last-seen map and a failing tracker, the pass emits nothing yet records
last-seen 1 for issue 1, and the next pass with a working tracker emits
nothing either — the comment is never re-attempted. -/
theorem c1_lastSeen_updated_before_emission :
    postFeatureProgress (fun _ => none) [⟨some 1, true⟩] [] = ([(1, 1)], []) ∧
    (postFeatureProgress (fun _ => some []) [⟨some 1, true⟩]
      (postFeatureProgress (fun _ => none) [⟨some 1, true⟩] []).1).2 = [] := by
  constructor <;> rfl

/-- C2.  The claim says one issue's remote-call failure must not prevent
processing of the other issues of the same snapshot.  The `try` wraps the
whole per-issue loop: on a ledger grouping into issues 1 and 2 where the
tracker fails for issue 1, the pass emits no action at all and never even
records issue 2 in the last-seen map, although the same pass with a
working tracker emits issue 2's completion. -/
theorem c2_failure_aborts_whole_pass :
    (postFeatureProgress (fun n => if n = 1 then none else some [])
      [⟨some 1, true⟩, ⟨some 2, true⟩] []).2 = [] ∧
    alGet 2 (postFeatureProgress (fun n => if n = 1 then none else some [])
      [⟨some 1, true⟩, ⟨some 2, true⟩] []).1 = none ∧
    RAction.completionComment 2 ∈
      (postFeatureProgress (fun _ => some []) [⟨some 1, true⟩, ⟨some 2, true⟩] []).2 := by
  refine ⟨rfl, rfl, ?_⟩
  decide

/-- C4.  The claim says both updates' fields survive any interleaving and
the exclusive lock covers the full read+merge+write.  The `flock` is taken
only around `json.dump`; `_read_metrics` is unlocked, so in the schedule
read1, read2, write1, write2 both updates read the empty snapshot and the
second write erases the first's field `a`. -/
theorem c4_interleaved_update_lost :
    alGet "a" (crun [("a", Val.vInt 1)] [("b", Val.vInt 2)] "t1" "t2"
      [CEv.read1, CEv.read2, CEv.write1, CEv.write2] ⟨[], none, none⟩).file = none ∧
    alGet "b" (crun [("a", Val.vInt 1)] [("b", Val.vInt 2)] "t1" "t2"
      [CEv.read1, CEv.read2, CEv.write1, CEv.write2] ⟨[], none, none⟩).file =
      some (Val.vInt 2) := by
  constructor <;> rfl

/-- C3, counterexample.  On a scan of six distinct new hashes and an empty
seen set, the returned set misses the sixth hash (only the five named in
the comment are added) and a second call with the same scan result posts
again, contradicting both halves of the claim. -/
theorem c3_cap_overflow_hashes_dropped :
    "h6" ∉ (postScreenshots
      [("p1", "h1"), ("p2", "h2"), ("p3", "h3"), ("p4", "h4"), ("p5", "h5"), ("p6", "h6")]
      ∅).1 ∧
    (postScreenshots
      [("p1", "h1"), ("p2", "h2"), ("p3", "h3"), ("p4", "h4"), ("p5", "h5"), ("p6", "h6")]
      (postScreenshots
        [("p1", "h1"), ("p2", "h2"), ("p3", "h3"), ("p4", "h4"), ("p5", "h5"), ("p6", "h6")]
        ∅).1).2 = true := by
  constructor
  · decide
  · rfl

/-- C9, counterexample.  On a disabled publisher with running commit total
0, `publish_commits_pushed(3)` returns `False` and writes nothing, but the
internal running total becomes 3: the operation is not free of side
effects on the publisher's state. -/
theorem c9_disabled_commit_total_mutated :
    (publishCommitsPushed ⟨false, 0, none, none⟩ [] 3 "t").1 = false ∧
    (publishCommitsPushed ⟨false, 0, none, none⟩ [] 3 "t").2.2 = [] ∧
    (publishCommitsPushed ⟨false, 0, none, none⟩ [] 3 "t").2.1.totalCommits = 3 ∧
    (⟨false, 0, none, none⟩ : Pub).totalCommits = 0 := by
  refine ⟨rfl, rfl, rfl, rfl⟩

/-- C9, amended.  When the store is disabled every modelled publisher
operation returns `false` and leaves the metrics file untouched, but the
publisher's internal state is not preserved: `publish_commits_pushed`
still adds `count` to the running commit total and
`publish_session_started` still resets it to zero. -/
theorem c9_disabled_ops_no_file_write (p : Pub) (file : Dict)
    (mode ts e : String) (count : Int) (a b c d f g : Val)
    (hp : p.enabled = false) :
    ((publishSessionStarted p file mode ts).1 = false ∧
     (publishSessionStarted p file mode ts).2.2 = file ∧
     (publishSessionStarted p file mode ts).2.1.totalCommits = 0) ∧
    ((publishProgress p file a b c d f g ts).1 = false ∧
     (publishProgress p file a b c d f g ts).2 = file) ∧
    ((publishCommitsPushed p file count ts).1 = false ∧
     (publishCommitsPushed p file count ts).2.2 = file ∧
     (publishCommitsPushed p file count ts).2.1.totalCommits =
       p.totalCommits + count) ∧
    (∀ cur, getErrList file = some cur →
      publishError p file e ts = some (false, file)) := by
  refine ⟨⟨?_, ?_, ?_⟩, ⟨?_, ?_⟩, ⟨?_, ?_, ?_⟩, ?_⟩
  · simp [publishSessionStarted, writeMetrics, hp]
  · simp [publishSessionStarted, writeMetrics, hp]
  · simp [publishSessionStarted, writeMetrics, hp]
  · simp [publishProgress, updateMetrics, writeMetrics, hp]
  · simp [publishProgress, updateMetrics, writeMetrics, hp]
  · simp [publishCommitsPushed, updateMetrics, writeMetrics, hp]
  · simp [publishCommitsPushed, updateMetrics, writeMetrics, hp]
  · simp [publishCommitsPushed, updateMetrics, writeMetrics, hp]
  · intro cur hcur
    simp [publishError, hcur, updateMetrics, writeMetrics, hp]

/-- Witness for C9's amended theorem at a concrete disabled publisher. -/
theorem c9_disabled_ops_witness :
    (Pub.mk false 7 (some 3) (some "s")).enabled = false ∧
    (((publishSessionStarted (Pub.mk false 7 (some 3) (some "s"))
        [("x", Val.vInt 1)] "full_build" "t").1 = false ∧
      (publishSessionStarted (Pub.mk false 7 (some 3) (some "s"))
        [("x", Val.vInt 1)] "full_build" "t").2.2 = [("x", Val.vInt 1)] ∧
      (publishSessionStarted (Pub.mk false 7 (some 3) (some "s"))
        [("x", Val.vInt 1)] "full_build" "t").2.1.totalCommits = 0) ∧
     ((publishProgress (Pub.mk false 7 (some 3) (some "s")) [("x", Val.vInt 1)]
        (Val.vInt 0) (Val.vInt 0) (Val.vInt 0) (Val.vInt 0) (Val.vInt 0)
        (Val.vInt 0) "t").1 = false ∧
      (publishProgress (Pub.mk false 7 (some 3) (some "s")) [("x", Val.vInt 1)]
        (Val.vInt 0) (Val.vInt 0) (Val.vInt 0) (Val.vInt 0) (Val.vInt 0)
        (Val.vInt 0) "t").2 = [("x", Val.vInt 1)]) ∧
     ((publishCommitsPushed (Pub.mk false 7 (some 3) (some "s"))
        [("x", Val.vInt 1)] 2 "t").1 = false ∧
      (publishCommitsPushed (Pub.mk false 7 (some 3) (some "s"))
        [("x", Val.vInt 1)] 2 "t").2.2 = [("x", Val.vInt 1)] ∧
      (publishCommitsPushed (Pub.mk false 7 (some 3) (some "s"))
        [("x", Val.vInt 1)] 2 "t").2.1.totalCommits =
        (Pub.mk false 7 (some 3) (some "s")).totalCommits + 2) ∧
     (∀ cur, getErrList [("x", Val.vInt 1)] = some cur →
       publishError (Pub.mk false 7 (some 3) (some "s")) [("x", Val.vInt 1)]
         "agent_crash" "t" = some (false, [("x", Val.vInt 1)]))) :=
  ⟨rfl, c9_disabled_ops_no_file_write (Pub.mk false 7 (some 3) (some "s"))
    [("x", Val.vInt 1)] "full_build" "t" "agent_crash" 2
    (Val.vInt 0) (Val.vInt 0) (Val.vInt 0) (Val.vInt 0) (Val.vInt 0)
    (Val.vInt 0) rfl⟩

/-- C5.  On an enabled store, `_update_metrics(**kwargs)` reports success,
sets every given field to its given value, stamps `last_updated` with the
current timestamp, and leaves every other field of the snapshot with
exactly the value it had before. -/
theorem c5_update_metrics_frame (p : Pub) (file kwargs : Dict) (ts k : String)
    (hp : p.enabled = true) (hnd : (kwargs.map Prod.fst).Nodup) :
    (updateMetrics p file kwargs ts).1 = true ∧
    alGet "last_updated" (updateMetrics p file kwargs ts).2 =
      some (Val.vStr ts) ∧
    (∀ v, k ≠ "last_updated" → alGet k kwargs = some v →
      alGet k (updateMetrics p file kwargs ts).2 = some v) ∧
    (k ≠ "last_updated" → alGet k kwargs = none →
      alGet k (updateMetrics p file kwargs ts).2 = alGet k file) := by
  have hres : updateMetrics p file kwargs ts =
      (true, alSet "last_updated" (Val.vStr ts) (pyUpdate file kwargs)) := by
    simp [updateMetrics, writeMetrics, hp]
  refine ⟨by rw [hres], ?_, ?_, ?_⟩
  · rw [hres]; exact alGet_alSet_self _ _ _
  · intro v hk hv
    rw [hres]
    simp only
    rw [alGet_alSet_ne _ _ _ _ (fun he => hk he.symm)]
    exact alGet_pyUpdate_of_some kwargs file k v hnd hv
  · intro hk hv
    rw [hres]
    simp only
    rw [alGet_alSet_ne _ _ _ _ (fun he => hk he.symm)]
    exact alGet_pyUpdate_of_none kwargs file k hv

/-- Witness for C5 on a concrete snapshot and field set. -/
theorem c5_update_metrics_witness :
    (Pub.mk true 0 none none).enabled = true ∧
    ((["a", "b"] : List String).Nodup) ∧
    ((updateMetrics (Pub.mk true 0 none none)
        [("x", Val.vInt 9), ("a", Val.vInt 0)]
        [("a", Val.vInt 1), ("b", Val.vStr "v")] "t").1 = true ∧
     alGet "last_updated" (updateMetrics (Pub.mk true 0 none none)
        [("x", Val.vInt 9), ("a", Val.vInt 0)]
        [("a", Val.vInt 1), ("b", Val.vStr "v")] "t").2 =
       some (Val.vStr "t") ∧
     (∀ v, "x" ≠ "last_updated" →
       alGet "x" [("a", Val.vInt 1), ("b", Val.vStr "v")] = some v →
       alGet "x" (updateMetrics (Pub.mk true 0 none none)
         [("x", Val.vInt 9), ("a", Val.vInt 0)]
         [("a", Val.vInt 1), ("b", Val.vStr "v")] "t").2 = some v) ∧
     ("x" ≠ "last_updated" →
       alGet "x" [("a", Val.vInt 1), ("b", Val.vStr "v")] = none →
       alGet "x" (updateMetrics (Pub.mk true 0 none none)
         [("x", Val.vInt 9), ("a", Val.vInt 0)]
         [("a", Val.vInt 1), ("b", Val.vStr "v")] "t").2 =
         alGet "x" [("x", Val.vInt 9), ("a", Val.vInt 0)])) :=
  ⟨rfl, by decide,
   c5_update_metrics_frame (Pub.mk true 0 none none)
     [("x", Val.vInt 9), ("a", Val.vInt 0)]
     [("a", Val.vInt 1), ("b", Val.vStr "v")] "t" "x" rfl (by decide)⟩

theorem addToGroup_groups_ne_nil (n : Int) (t : TestRec) :
    ∀ gs : List (Int × List TestRec), (∀ p ∈ gs, p.2 ≠ []) →
      ∀ p ∈ addToGroup n t gs, p.2 ≠ [] := by
  intro gs
  induction gs with
  | nil =>
    intro _ p hp
    simp only [addToGroup, List.mem_singleton] at hp
    subst hp; simp
  | cons hd rest ih =>
    intro hall p hp
    obtain ⟨m, ts⟩ := hd
    by_cases h : m = n
    · simp only [addToGroup, if_pos h, List.mem_cons] at hp
      rcases hp with hp | hp
      · subst hp; simp
      · exact hall p (List.mem_cons_of_mem _ hp)
    · simp only [addToGroup, if_neg h, List.mem_cons] at hp
      rcases hp with hp | hp
      · subst hp; exact hall (m, ts) (List.mem_cons_self _ _)
      · exact ih (fun q hq => hall q (List.mem_cons_of_mem _ hq)) p hp

theorem grpStep_groups_ne_nil (gs : List (Int × List TestRec)) (t : TestRec)
    (hall : ∀ p ∈ gs, p.2 ≠ []) : ∀ p ∈ grpStep gs t, p.2 ≠ [] := by
  unfold grpStep
  cases t.issueNumber with
  | none => exact hall
  | some n =>
    by_cases h : n ≠ 0
    · simp only [if_pos h]
      exact addToGroup_groups_ne_nil n t gs hall
    · simp only [if_neg h]
      exact hall

theorem byIssue_groups_ne_nil (tests : List TestRec) :
    ∀ p ∈ byIssue tests, p.2 ≠ [] := by
  have haux : ∀ (l : List TestRec) (gs : List (Int × List TestRec)),
      (∀ p ∈ gs, p.2 ≠ []) → ∀ p ∈ l.foldl grpStep gs, p.2 ≠ [] := by
    intro l
    induction l with
    | nil => intro gs h; exact h
    | cons hd rest ih =>
      intro gs h
      exact ih (grpStep gs hd) (grpStep_groups_ne_nil gs hd h)
  exact haux tests [] (by intro p hp; simp at hp)

/-- C7.  A group produced by `by_issue` is never empty (an entry exists
only because at least one record was appended to it), so `total == 0` is
unreachable; and the completion branch requires `total > 0` anyway, so a
zero-total group would get a plain progress comment — no close, no
relabel — with the percentage guarded to 0 instead of dividing by zero. -/
theorem c7_zero_total_never_complete :
    (∀ (tests : List TestRec) (n : Int) (group : List TestRec),
      (n, group) ∈ byIssue tests → group ≠ []) ∧
    (∀ (labels : List String) (n : Int) (passed : Nat),
      issueActions labels n passed 0 = [RAction.progressComment n passed 0]) ∧
    (∀ passed : Nat, progressPct passed 0 = 0) := by
  refine ⟨?_, ?_, ?_⟩
  · intro tests n group hmem
    exact byIssue_groups_ne_nil tests (n, group) hmem
  · intro labels n passed
    simp [issueActions]
  · intro passed
    simp [progressPct]

/-- Witness for C7 at a concrete one-record ledger and a concrete group. -/
theorem c7_zero_total_witness :
    ((1, [TestRec.mk (some 1) true]) ∈ byIssue [TestRec.mk (some 1) true] ∧
      [TestRec.mk (some 1) true] ≠ []) ∧
    issueActions ["agent-building"] 1 3 0 = [RAction.progressComment 1 3 0] ∧
    progressPct 3 0 = 0 :=
  ⟨⟨by decide,
    c7_zero_total_never_complete.1 [TestRec.mk (some 1) true] 1
      [TestRec.mk (some 1) true] (by decide)⟩,
   c7_zero_total_never_complete.2.1 ["agent-building"] 1 3,
   c7_zero_total_never_complete.2.2 3⟩

theorem mem_foldl_insert (l : List (String × String)) :
    ∀ (s : Finset String) (h : String),
      (h ∈ l.foldl (fun acc ph => insert ph.2 acc) s) ↔
        h ∈ s ∨ h ∈ l.map Prod.snd := by
  induction l with
  | nil => intro s h; simp
  | cons hd t ih =>
    intro s h
    simp only [List.foldl_cons, List.map_cons, List.mem_cons]
    rw [ih]
    simp only [Finset.mem_insert]
    tauto

/-- C3, amended.  `post_screenshots_to_issue` returns the seen set
extended with the hashes of only the first 5 new screenshots — the ones
named in the posted comment; hashes beyond the cap are not added.  Only
when at most 5 screenshots are new does the returned set cover every
scanned hash, and only then does a second call with the same scan result
make no remote post and return a set equal to the first call's. -/
theorem c3_returned_set_caps_at_five (scan : List (String × String))
    (uploaded : Finset String) :
    (∀ h, h ∈ (postScreenshots scan uploaded).1 ↔
      h ∈ uploaded ∨ h ∈ ((newShots scan uploaded).take 5).map Prod.snd) ∧
    ((newShots scan uploaded).length ≤ 5 →
      (∀ ph ∈ scan, ph.2 ∈ (postScreenshots scan uploaded).1) ∧
      postScreenshots scan (postScreenshots scan uploaded).1 =
        ((postScreenshots scan uploaded).1, false)) := by
  have hmem : ∀ h, h ∈ (postScreenshots scan uploaded).1 ↔
      h ∈ uploaded ∨ h ∈ ((newShots scan uploaded).take 5).map Prod.snd := by
    intro h
    by_cases hns : newShots scan uploaded = []
    · simp [postScreenshots, hns]
    · simp only [postScreenshots, if_neg hns]
      exact mem_foldl_insert _ uploaded h
  refine ⟨hmem, ?_⟩
  intro hlen
  have htake : (newShots scan uploaded).take 5 = newShots scan uploaded :=
    List.take_of_length_le hlen
  have hcover : ∀ ph ∈ scan, ph.2 ∈ (postScreenshots scan uploaded).1 := by
    intro ph hph
    rw [hmem]
    by_cases hup : ph.2 ∈ uploaded
    · exact Or.inl hup
    · right
      rw [htake]
      exact List.mem_map_of_mem Prod.snd
        (List.mem_filter.mpr ⟨hph, by simpa using hup⟩)
  refine ⟨hcover, ?_⟩
  have hns2 : newShots scan (postScreenshots scan uploaded).1 = [] := by
    rw [newShots, List.filter_eq_nil_iff]
    intro ph hph
    simpa using hcover ph hph
  generalize hS : (postScreenshots scan uploaded).1 = S at hns2 ⊢
  simp [postScreenshots, hns2]

/-- Witness for C3's amended theorem on a two-screenshot scan. -/
theorem c3_returned_set_witness :
    (newShots [("p1", "h1"), ("p2", "h2")] ∅).length ≤ 5 ∧
    ((∀ ph ∈ [("p1", "h1"), ("p2", "h2")],
        ph.2 ∈ (postScreenshots [("p1", "h1"), ("p2", "h2")] ∅).1) ∧
      postScreenshots [("p1", "h1"), ("p2", "h2")]
          (postScreenshots [("p1", "h1"), ("p2", "h2")] ∅).1 =
        ((postScreenshots [("p1", "h1"), ("p2", "h2")] ∅).1, false)) :=
  ⟨by decide,
   (c3_returned_set_caps_at_five [("p1", "h1"), ("p2", "h2")] ∅).2 (by decide)⟩

theorem pyLast50_length_le {α : Type} (l : List α) : (pyLast50 l).length ≤ 50 := by
  simp only [pyLast50, List.length_drop]
  omega

theorem pyLast50_append {α : Type} (l r : List α) :
    pyLast50 (pyLast50 l ++ r) = pyLast50 (l ++ r) := by
  unfold pyLast50
  have h1 : l.drop (l.length - 50) ++ r = (l ++ r).drop (l.length - 50) := by
    rw [List.drop_append_eq_append_drop]
    have h0 : l.length - 50 - l.length = 0 := by omega
    rw [h0, List.drop_zero]
  rw [h1, List.drop_drop]
  congr 1
  simp only [List.length_drop, List.length_append]
  omega

theorem foldl_pyLast50 {α : Type} :
    ∀ (es : List α) (cur : List α), es ≠ [] →
      es.foldl (fun acc x => pyLast50 (acc ++ [x])) cur = pyLast50 (cur ++ es) := by
  intro es
  induction es with
  | nil => intro cur h; exact absurd rfl h
  | cons hd rest ih =>
    intro cur _
    by_cases hr : rest = []
    · subst hr; simp
    · simp only [List.foldl_cons]
      rw [ih _ hr, pyLast50_append]
      congr 1
      simp

theorem publishError_success (p : Pub) (file : Dict) (e ts : String)
    (cur : List (String × String)) (hp : p.enabled = true)
    (hc : getErrList file = some cur) :
    publishError p file e ts =
      some (true, alSet "last_updated" (Val.vStr ts)
        (pyUpdate file
          [("errors", Val.vErrs (pyLast50 (cur ++ [(e, ts)]))),
           ("last_error", Val.vStr e),
           ("last_error_time", Val.vStr ts),
           ("status", Val.vStr "error")])) := by
  simp [publishError, hc, updateMetrics, writeMetrics, hp]

theorem getErrList_after_publish (p : Pub) (file : Dict) (e ts : String)
    (cur : List (String × String)) (hp : p.enabled = true)
    (hc : getErrList file = some cur) :
    ∃ f', publishError p file e ts = some (true, f') ∧
      alGet "errors" f' = some (Val.vErrs (pyLast50 (cur ++ [(e, ts)]))) ∧
      getErrList f' = some (pyLast50 (cur ++ [(e, ts)])) := by
  refine ⟨_, publishError_success p file e ts cur hp hc, ?_⟩
  have halget : alGet "errors"
      (alSet "last_updated" (Val.vStr ts)
        (pyUpdate file
          [("errors", Val.vErrs (pyLast50 (cur ++ [(e, ts)]))),
           ("last_error", Val.vStr e),
           ("last_error_time", Val.vStr ts),
           ("status", Val.vStr "error")])) =
      some (Val.vErrs (pyLast50 (cur ++ [(e, ts)]))) := by
    rw [alGet_alSet_ne _ _ _ _ (by decide)]
    rw [alGet_pyUpdate_of_some _ file "errors"
      (Val.vErrs (pyLast50 (cur ++ [(e, ts)])))
      (by simp only [List.map_cons, List.map_nil]; decide)
      (by simp [alGet])]
  refine ⟨halget, ?_⟩
  unfold getErrList
  rw [halget]

theorem publishErrorSeq_errors (p : Pub) (hp : p.enabled = true) :
    ∀ (es : List (String × String)) (file : Dict) (cur : List (String × String)),
      getErrList file = some cur →
      getErrList (publishErrorSeq p file es) =
        some (es.foldl (fun acc ets => pyLast50 (acc ++ [ets])) cur) := by
  intro es
  induction es with
  | nil => intro file cur hc; simpa [publishErrorSeq] using hc
  | cons hd rest ih =>
    intro file cur hc
    obtain ⟨e, ts⟩ := hd
    obtain ⟨f', hpe, -, hf'⟩ := getErrList_after_publish p file e ts cur hp hc
    simp only [publishErrorSeq, hpe, List.foldl_cons]
    exact ih f' (pyLast50 (cur ++ [(e, ts)])) hf'

/-- C8.  Every successful `publish_error` call writes an `errors` list of
at most 50 entries (whatever the prior snapshot held), and 55 sequential
calls starting from an empty snapshot leave exactly the 50 most recent
entries — the first 5 are evicted. -/
theorem c8_error_history_capped :
    (∀ (p : Pub) (file : Dict) (e ts : String) (out : Bool × Dict),
      p.enabled = true → publishError p file e ts = some out →
      ∃ es, alGet "errors" out.2 = some (Val.vErrs es) ∧ es.length ≤ 50) ∧
    (∀ (p : Pub) (es : List (String × String)),
      p.enabled = true → es.length = 55 →
      getErrList (publishErrorSeq p [] es) = some (es.drop 5)) := by
  constructor
  · intro p file e ts out hp hout
    obtain ⟨cur, hcur, -⟩ : ∃ cur, getErrList file = some cur ∧ _ = out :=
      Option.map_eq_some'.mp hout
    obtain ⟨f', hpe, halget, -⟩ :=
      getErrList_after_publish p file e ts cur hp hcur
    rw [hpe] at hout
    have hof : (true, f') = out := Option.some_inj.mp hout
    subst hof
    exact ⟨pyLast50 (cur ++ [(e, ts)]), halget, pyLast50_length_le _⟩
  · intro p es hp hlen
    have h0 : getErrList ([] : Dict) = some [] := rfl
    rw [publishErrorSeq_errors p hp es [] [] h0]
    have hne : es ≠ [] := by intro h; rw [h] at hlen; simp at hlen
    rw [foldl_pyLast50 es [] hne]
    simp only [List.nil_append, pyLast50, hlen]

/-- Witness for C8: one call on a fresh store, and an explicit 55-call
sequence. -/
theorem c8_error_history_witness :
    (Pub.mk true 0 none none).enabled = true ∧
    ((List.range 55).map (fun i => (toString i, "t"))).length = 55 ∧
    (∃ es, alGet "errors"
        (publishError (Pub.mk true 0 none none) [] "x" "t").iget.2 =
        some (Val.vErrs es) ∧ es.length ≤ 50) ∧
    getErrList (publishErrorSeq (Pub.mk true 0 none none) []
        ((List.range 55).map (fun i => (toString i, "t")))) =
      some ((((List.range 55).map (fun i => (toString i, "t")))).drop 5) :=
  ⟨rfl, by simp,
   c8_error_history_capped.1 (Pub.mk true 0 none none) [] "x" "t"
     (publishError (Pub.mk true 0 none none) [] "x" "t").iget rfl rfl,
   c8_error_history_capped.2 (Pub.mk true 0 none none)
     ((List.range 55).map (fun i => (toString i, "t"))) rfl (by simp)⟩

theorem addToGroup_keys (n : Int) (t : TestRec) :
    ∀ gs : List (Int × List TestRec),
      (addToGroup n t gs).map Prod.fst =
        if n ∈ gs.map Prod.fst then gs.map Prod.fst
        else gs.map Prod.fst ++ [n] := by
  intro gs
  induction gs with
  | nil => simp [addToGroup]
  | cons hd rest ih =>
    obtain ⟨m, ts⟩ := hd
    by_cases h : m = n
    · subst h; simp [addToGroup]
    · have hnm : ¬ (n = m) := fun he => h he.symm
      simp only [addToGroup, if_neg h, List.map_cons, ih, List.mem_cons]
      by_cases hmem : n ∈ rest.map Prod.fst
      · rw [if_pos hmem, if_pos (Or.inr hmem)]
      · rw [if_neg hmem, if_neg (by rintro (h1 | h2) <;> [exact hnm h1; exact hmem h2])]
        simp

theorem grpStep_keys_nodup (gs : List (Int × List TestRec)) (t : TestRec)
    (h : (gs.map Prod.fst).Nodup) : ((grpStep gs t).map Prod.fst).Nodup := by
  cases h' : t.issueNumber with
  | none => simpa [grpStep, h'] using h
  | some n =>
    by_cases hn : n ≠ 0
    · have he : grpStep gs t = addToGroup n t gs := by simp [grpStep, h', hn]
      rw [he, addToGroup_keys]
      split_ifs with hm
      · exact h
      · rw [List.nodup_append]
        refine ⟨h, List.nodup_singleton n, ?_⟩
        intro a ha hb
        rw [List.mem_singleton] at hb
        subst hb
        exact hm ha
    · have he : grpStep gs t = gs := by simp [grpStep, h', hn]
      rw [he]; exact h

theorem byIssue_keys_nodup (tests : List TestRec) :
    ((byIssue tests).map Prod.fst).Nodup := by
  have haux : ∀ (l : List TestRec) (gs : List (Int × List TestRec)),
      (gs.map Prod.fst).Nodup → ((l.foldl grpStep gs).map Prod.fst).Nodup := by
    intro l
    induction l with
    | nil => intro gs h; exact h
    | cons hd rest ih =>
      intro gs h
      exact ih (grpStep gs hd) (grpStep_keys_nodup gs hd h)
  exact haux tests [] (by simp)

theorem processIssues_acc (o : Int → Option (List String)) :
    ∀ (gs : List (Int × List TestRec)) (lp : List (Int × Nat))
      (acts : List RAction),
      (processIssues o gs lp acts).1 = (processIssues o gs lp []).1 ∧
      (processIssues o gs lp acts).2 = acts ++ (processIssues o gs lp []).2 := by
  intro gs
  induction gs with
  | nil => intro lp acts; simp [processIssues]
  | cons hd rest ih =>
    intro lp acts
    obtain ⟨n, ts⟩ := hd
    simp only [processIssues]
    split_ifs with h
    · exact ih lp acts
    · cases ho : o n with
      | none => simp
      | some labels =>
        simp only [List.nil_append]
        constructor
        · rw [(ih (alSet n (passedCount ts) lp)
              (acts ++ issueActions labels n (passedCount ts) ts.length)).1,
            (ih (alSet n (passedCount ts) lp)
              (issueActions labels n (passedCount ts) ts.length)).1]
        · rw [(ih (alSet n (passedCount ts) lp)
              (acts ++ issueActions labels n (passedCount ts) ts.length)).2,
            (ih (alSet n (passedCount ts) lp)
              (issueActions labels n (passedCount ts) ts.length)).2,
            List.append_assoc]

theorem processIssues_first_seen (o : Int → Option (List String))
    (ho : ∀ m, o m ≠ none) :
    ∀ (gs : List (Int × List TestRec)) (lp : List (Int × Nat))
      (acts : List RAction) (n : Int) (group : List TestRec),
      (gs.map Prod.fst).Nodup → (n, group) ∈ gs → alGet n lp = none →
      group ≠ [] → (∀ t ∈ group, t.passes = false) →
      RAction.progressComment n 0 group.length ∈ (processIssues o gs lp acts).2 := by
  intro gs
  induction gs with
  | nil => intro lp acts n group _ hmem _ _ _; simp at hmem
  | cons hd rest ih =>
    intro lp acts n group hnd hmem hlp hne hfail
    obtain ⟨m, ts⟩ := hd
    rcases List.mem_cons.mp hmem with heq | hmem'
    · obtain ⟨h1, h2⟩ := Prod.mk.inj heq
      subst h1
      subst h2
      have hpassed : passedCount group = 0 := by
        unfold passedCount
        rw [List.filter_eq_nil_iff.mpr (fun t ht => by simp [hfail t ht])]
        rfl
      simp only [processIssues]
      rw [if_neg (by rw [hlp]; exact fun h => Option.noConfusion h)]
      cases hon : o n with
      | none => exact absurd hon (ho n)
      | some labels =>
        have hlen : group.length ≠ 0 := by
          simpa [List.length_eq_zero] using hne
        have hia : issueActions labels n (passedCount group) group.length =
            [RAction.progressComment n 0 group.length] := by
          rw [hpassed]
          unfold issueActions
          rw [if_neg (fun hand => hlen hand.1.symm)]
        rw [(processIssues_acc o rest (alSet n (passedCount group) lp)
          (acts ++ issueActions labels n (passedCount group) group.length)).2]
        rw [hia]
        simp
    · have hndm : ((m :: rest.map Prod.fst)).Nodup := by simpa using hnd
      have hmn : m ≠ n := by
        intro he
        subst he
        exact (List.nodup_cons.mp hndm).1 (List.mem_map_of_mem Prod.fst hmem')
      have hnd' : (rest.map Prod.fst).Nodup := (List.nodup_cons.mp hndm).2
      simp only [processIssues]
      split_ifs with hskip
      · exact ih lp acts n group hnd' hmem' hlp hne hfail
      · cases hon : o m with
        | none => exact absurd hon (ho m)
        | some labels =>
          refine ih _ _ n group hnd' hmem' ?_ hne hfail
          rw [alGet_alSet_ne _ _ _ _ hmn]
          exact hlp

/-- C10.  On the first pass that observes an issue (its number absent from
the last-seen map) whose tests all fail, the missing entry compares
unequal to the freshly computed passed-count 0 (`dict.get` yields `None`,
and `None == 0` is false), so a `0/N` progress comment is emitted for that
issue when the tracker is reachable. -/
theorem c10_first_observation_posts_zero (o : Int → Option (List String))
    (tests : List TestRec) (lp : List (Int × Nat)) (n : Int)
    (group : List TestRec) (ho : ∀ m, o m ≠ none)
    (hmem : (n, group) ∈ byIssue tests) (hlp : alGet n lp = none)
    (hfail : ∀ t ∈ group, t.passes = false) :
    RAction.progressComment n 0 group.length ∈
      (postFeatureProgress o tests lp).2 :=
  processIssues_first_seen o ho (byIssue tests) lp [] n group
    (byIssue_keys_nodup tests) hmem hlp
    (byIssue_groups_ne_nil tests (n, group) hmem) hfail

/-- Witness for C10 on a one-record ledger whose single test fails. -/
theorem c10_first_observation_witness :
    (∀ m : Int, (fun _ : Int => some ([] : List String)) m ≠ none) ∧
    ((1 : Int), [TestRec.mk (some 1) false]) ∈
      byIssue [TestRec.mk (some 1) false] ∧
    alGet (1 : Int) ([] : List (Int × Nat)) = none ∧
    (∀ t ∈ [TestRec.mk (some 1) false], t.passes = false) ∧
    RAction.progressComment 1 0 1 ∈
      (postFeatureProgress (fun _ => some []) [TestRec.mk (some 1) false] []).2 :=
  ⟨fun _ h => Option.noConfusion h, by decide, rfl, by decide,
   c10_first_observation_posts_zero (fun _ => some [])
     [TestRec.mk (some 1) false] [] 1 [TestRec.mk (some 1) false]
     (fun _ h => Option.noConfusion h) (by decide) rfl (by decide)⟩

theorem stampObj_idem (m : List (String × Int)) (kvs : List (String × Json)) :
    stampObj m (stampObj m kvs) = stampObj m kvs := by
  rcases hf : alGet "feature" kvs with _ | jv
  · simp [stampObj, hf]
  · cases jv with
    | str s =>
      by_cases hs : s ≠ ""
      · rcases hm : alGet s m with _ | v
        · simp [stampObj, hf, hs, hm]
        · have h1 : stampObj m kvs = alSet "issueNumber" (Json.int v) kvs := by
            simp [stampObj, hf, hs, hm]
          rw [h1]
          have h2 : alGet "feature" (alSet "issueNumber" (Json.int v) kvs) =
              some (Json.str s) := by
            rw [alGet_alSet_ne _ _ _ _ (by decide)]; exact hf
          simp [stampObj, h2, hs, hm, alSet_alSet_self]
      · simp [stampObj, hf, hs]
    | null => simp [stampObj, hf]
    | bool b => simp [stampObj, hf]
    | int k => simp [stampObj, hf]
    | arr xs => simp [stampObj, hf]
    | obj o => simp [stampObj, hf]

theorem stampTest_idem (m : List (String × Int)) (t t' : Json)
    (h : stampTest m t = some t') : stampTest m t' = some t' := by
  cases t with
  | obj kvs =>
    simp only [stampTest, Option.some.injEq] at h
    subst h
    simp only [stampTest, Option.some.injEq, Json.obj.injEq]
    exact stampObj_idem m kvs
  | null => simp [stampTest] at h
  | bool b => simp [stampTest] at h
  | int k => simp [stampTest] at h
  | str s => simp [stampTest] at h
  | arr xs => simp [stampTest] at h

theorem stampList_idem (m : List (String × Int)) :
    ∀ ts ts' : List Json, stampList m ts = some ts' →
      stampList m ts' = some ts' := by
  intro ts
  induction ts with
  | nil =>
    intro ts' h
    simp only [stampList, Option.some.injEq] at h
    subst h
    rfl
  | cons t rest ih =>
    intro ts' h
    simp only [stampList] at h
    rcases ht : stampTest m t with _ | t1 <;> rw [ht] at h
    · simp at h
    · rcases hr : stampList m rest with _ | rest1 <;> rw [hr] at h
      · simp at h
      · simp only [Option.some.injEq] at h
        subst h
        simp only [stampList]
        rw [stampTest_idem m t t1 ht, ih rest1 hr]

theorem stampFile_idem (m : List (String × Int)) (c j : Json)
    (h : stampFile m c = some j) : stampFile m j = some j := by
  cases c with
  | arr ts =>
    simp only [stampFile] at h
    rcases hl : stampList m ts with _ | ts' <;> rw [hl] at h
    · simp at h
    · simp only [Option.map_some', Option.some.injEq] at h
      subst h
      simp only [stampFile]
      rw [stampList_idem m ts ts' hl]
      rfl
  | null => simp [stampFile] at h
  | bool b => simp [stampFile] at h
  | int k => simp [stampFile] at h
  | str s => simp [stampFile] at h
  | obj o => simp [stampFile] at h

/-- C6.  `assign_issue_numbers_to_tests` is idempotent: with the same
feature-to-issue map, the file content after the second call is
byte-for-byte (and tree-for-tree) identical to the content after the
first — the second stamping writes every `issueNumber` to the value it
already has, and a failing (malformed) ledger is left unwritten both
times. -/
theorem c6_stamp_idempotent (m : List (String × Int)) (c : Json) :
    serJson (fileAfterStamp m (fileAfterStamp m c)) =
      serJson (fileAfterStamp m c) ∧
    fileAfterStamp m (fileAfterStamp m c) = fileAfterStamp m c := by
  have hval : fileAfterStamp m (fileAfterStamp m c) = fileAfterStamp m c := by
    unfold fileAfterStamp
    rcases h : stampFile m c with _ | j
    · simp [h]
    · simp only [h, Option.getD_some]
      rw [stampFile_idem m c j h]
      rfl
  exact ⟨congrArg serJson hval, hval⟩

end Spec2Proof
